import Mathlib

/-!
Verification of the MapleStory Worlds metadata downloader pipeline.

The development shallowly embeds the decision logic of the three pipeline
stages found in `steps/0-find_last_pages.py`, `steps/1-collect.py` and
`steps/2-enrich.py`:

* the per-page end-of-partition policy and retry enqueueing of the
  collection walk (`_worker_fetch_next_page` / `_process_one_segment`);
* the phase-2 binary search with confirmation of the boundary discovery
  step (`phase2_binary_search_to_last`);
* the global retry pass dequeue policy of collection (`main`);
* the dedup commit logic for records (`seen` / `seen_per_ruid_cat`) and the
  final merge of collected rows;
* the single-writer enrichment pipeline (`_writer_worker` / `_write_row`)
  together with its temp-file/atomic-rename discipline;
* the merge-on-write update of the boundary table
  (`load_existing_last_pages` / `main` of step 0);
* the stdout-mode walk of collection (no retry tickets, stop at first
  failed or empty page).

Machine integers do not overflow in the modelled code paths (page numbers
and counts are small), so pages and record counts are `Nat`, category and
subcategory identifiers are `Int` (the catch-all subcategory is `-1`), and
fallible fetches are `Option`-valued.
-/

set_option maxHeartbeats 1000000

/-! ## Constants from `steps/1-collect.py` and `steps/0-find_last_pages.py` -/

/-- `MAX_ITEMS_PER_PAGE = 150`: nominal max items per listing page. -/
def MAX_ITEMS_PER_PAGE : Nat := 150

/-- `SKEPTICAL_PAGE_BUFFER = 10`: collect fetches up to `last_page + this`. -/
def SKEPTICAL_PAGE_BUFFER : Nat := 10

/-- `RETRY_PAGE_BUFFER = 20`: only retry a failed page if
`page <= max_page_with_content + this`. -/
def RETRY_PAGE_BUFFER : Nat := 20

/-- `MAX_PAGE_ATTEMPTS = 2`: max attempts per page for the normal retry list. -/
def MAX_PAGE_ATTEMPTS : Nat := 2

/-- `INDEFINITE_RETRY_MAX_ATTEMPTS = 5`: max retries for pages that had a
later page with content. -/
def INDEFINITE_RETRY_MAX_ATTEMPTS : Nat := 5

/-- `CONFIRM_ATTEMPTS = 3` from `steps/0-find_last_pages.py`. -/
def CONFIRM_ATTEMPTS : Nat := 3

/-- The outer-iteration bound `max_outer = 20` of
`phase2_binary_search_to_last`. -/
def MAX_OUTER_ITERS : Nat := 20

/-! ## Page fetch outcomes (collection walk) -/

/-- Outcome of fetching one listing page: `fail` models `fetch_page`
returning `None`, `ok n` models a successful fetch whose extraction yielded
`n` records. -/
inductive FetchResult where
  | fail
  | ok (count : Nat)
deriving DecidableEq

/-- What the collection walk does with one fetched page. -/
inductive PageAction where
  | enqueueRetryContinue
  | commitContinue
  | commitFinal
deriving DecidableEq

/-- The `is_last` test of `_worker_fetch_next_page` / `_process_one_segment`:
`(step0_last_page is None or page >= step0_last_page) and
 (len(found) == 0 or len(found) < MAX_ITEMS_PER_PAGE)`. -/
def isLastPage (count page : Nat) (step0LastPage : Option Nat) : Bool :=
  (match step0LastPage with
   | none => true
   | some h => decide (h ≤ page)) &&
  (decide (count = 0) || decide (count < MAX_ITEMS_PER_PAGE))

/-- Per-page decision of the primary walk (`_worker_fetch_next_page`,
lines 597-649 of `steps/1-collect.py`): a failed fetch or an extraction
with zero records is enqueued on the global retry list and the walk
continues; a page with `1 ≤ count < MAX_ITEMS_PER_PAGE` ends the segment
exactly when `is_last` holds; a full page commits and continues. -/
def workerPageAction (res : FetchResult) (page : Nat) (step0LastPage : Option Nat) :
    PageAction :=
  match res with
  | .fail => .enqueueRetryContinue
  | .ok n =>
    if n = 0 then .enqueueRetryContinue
    else if n < MAX_ITEMS_PER_PAGE then
      if isLastPage n page step0LastPage then .commitFinal else .commitContinue
    else .commitContinue

/-! ## Global retry pass (collection, `main`, lines 993-1060) -/

/-- What the global retry pass does with one dequeued ticket. -/
inductive RetryAction where
  | discard
  | commit (count : Nat)
  | requeue (attempts : Nat)
  | dropMaxAttempts
deriving DecidableEq

/-- One dequeue step of the global retry pass: a ticket for page `page`
with `attempts` prior attempts is discarded without a fetch when
`page > max_page_with_content + RETRY_PAGE_BUFFER`; otherwise the page is
fetched and either commits, is re-queued with `attempts + 1`, or gives up
at the attempt bound (5 for indefinite-retry tickets, else 2). -/
def retryDequeueStep (maxPageWithContent page attempts : Nat)
    (isIndefinite : Bool) (res : FetchResult) : RetryAction :=
  if maxPageWithContent + RETRY_PAGE_BUFFER < page then .discard
  else
    let maxAttempts :=
      if isIndefinite then INDEFINITE_RETRY_MAX_ATTEMPTS else MAX_PAGE_ATTEMPTS
    match res with
    | .fail =>
      if attempts + 1 < maxAttempts then .requeue (attempts + 1) else .dropMaxAttempts
    | .ok n =>
      if n = 0 then
        if attempts + 1 < maxAttempts then .requeue (attempts + 1) else .dropMaxAttempts
      else .commit n

/-! ## Stdout mode walk (collection, `main`, lines 1139-1174) -/

/-- The stdout-mode walk of one segment: fetch pages starting at `page`;
stop (fetching no further page) at the first page whose fetch fails or
yields zero records, and also after any partial page
(`count < MAX_ITEMS_PER_PAGE`).  Returns the list of fetched page numbers
and the (never populated) list of retry tickets; `fuel` bounds the
recursion and is irrelevant whenever a stopping page is in range. -/
def stdoutWalk (f : Nat → Option Nat) : Nat → Nat → List Nat × List Nat
  | 0, _ => ([], [])
  | fuel + 1, page =>
    match f page with
    | none => ([page], [])
    | some n =>
      if n = 0 then ([page], [])
      else if n < MAX_ITEMS_PER_PAGE then ([page], [])
      else
        let rest := stdoutWalk f fuel (page + 1)
        (page :: rest.1, rest.2)

/-! ## Phase 2 binary search with confirmation (`steps/0-find_last_pages.py`) -/

/-- Fueled version of the inner `while low < high` binary-search loop of
`phase2_binary_search_to_last`: probe `mid = (low + high + 1) // 2`; a page
with data moves `low` to `mid`, an empty page moves `high` to `mid - 1`.
Each step shrinks `high - low` by at least one, so fuel `high - low`
(supplied by `binSearchLoop`) exactly reproduces the loop. -/
def binSearchGo (f : Nat → Nat) : Nat → Nat → Nat → Nat
  | 0, low, _ => low
  | fuel + 1, low, high =>
    if low < high then
      let mid := (low + high + 1) / 2
      if 0 < f mid then binSearchGo f fuel mid high
      else binSearchGo f fuel low (mid - 1)
    else low

/-- The inner binary-search loop: returns the final value of `low`
(the `candidate`). -/
def binSearchLoop (f : Nat → Nat) (low high : Nat) : Nat :=
  binSearchGo f (high - low) low high

/-- Result of the confirmation `for attempt in range(CONFIRM_ATTEMPTS)`
loop: either a final answer of the whole search, or a restart of the
binary search on a narrowed range. -/
inductive ConfirmResult where
  | done : Option Nat → ConfirmResult
  | restart : Nat → Nat → ConfirmResult
deriving DecidableEq

/-- The confirmation loop of `phase2_binary_search_to_last`, with the
number of remaining attempts as the recursion argument (called with
`CONFIRM_ATTEMPTS`; the last attempt is the call with argument 1; the
argument-0 case is Python's `for ... else` clause, returning `candidate`).
Per attempt: fetch `candidate` and `candidate + 1`;
non-empty/empty confirms `candidate`; an empty `candidate` on the last
attempt falls back to `candidate - 1` (or `none` when `candidate = 1`);
a non-empty `candidate + 1` restarts the search on
`[candidate + 1, first_empty - 1]`. -/
def confirmAttempts (f : Nat → Nat) (firstEmpty candidate : Nat) :
    Nat → ConfirmResult
  | 0 => .done (some candidate)
  | n + 1 =>
    let cPrev := f candidate
    let cNext := f (candidate + 1)
    if 0 < cPrev ∧ cNext = 0 then .done (some candidate)
    else if cPrev = 0 ∧ n = 0 then
      if 1 < candidate then .done (some (candidate - 1)) else .done none
    else if 0 < cNext then .restart (candidate + 1) (firstEmpty - 1)
    else confirmAttempts f firstEmpty candidate n

/-- The outer `while outer_iters < max_outer` loop of
`phase2_binary_search_to_last`: run the binary search on `[low, high]`,
then the confirmation loop; a restart with an empty range returns the
current candidate (`if low > high: return candidate`), otherwise the
search resumes; exhausted fuel returns the last candidate. -/
def phase2Outer (f : Nat → Nat) (firstEmpty : Nat) :
    Nat → Nat → Nat → Nat → Option Nat
  | 0, _, _, candidate => some candidate
  | fuel + 1, low, high, _ =>
    let c := binSearchLoop f low high
    match confirmAttempts f firstEmpty c CONFIRM_ATTEMPTS with
    | .done r => r
    | .restart lo hi => if hi < lo then some c else phase2Outer f firstEmpty fuel lo hi c

/-- `phase2_binary_search_to_last` from `steps/0-find_last_pages.py`
(lines 81-149), over a deterministic fetch function `f` giving the record
count of each probed page: binary search in `[1, first_empty - 1]` for the
largest page with data, then confirm. -/
def phase2_binary_search_to_last (f : Nat → Nat) (firstEmpty : Nat) : Option Nat :=
  if firstEmpty - 1 < 1 then none
  else phase2Outer f firstEmpty MAX_OUTER_ITERS 1 (firstEmpty - 1) 1

/-- Deterministic fetch refuting C2 as stated: page 2 has one record,
every other page (page 1 included) is empty. -/
def cexFetch : Nat → Nat := fun p => if p = 2 then 1 else 0

/-- Deterministic fetch for the C2 witness: pages 1-3 have data,
later pages are empty. -/
def witFetch : Nat → Nat := fun p => if p ≤ 3 then 1 else 0

/-- Fetch function for the C10 witness: pages 1-2 are full (200 records),
page 3 onwards yields zero records. -/
def witStdoutFetch : Nat → Option Nat := fun q => if q ≤ 2 then some 200 else some 0

/-! ## Record dedup commit (collection) -/

/-- A record key `(ruid, category, subcategory)` as tracked by the `seen`
set of `steps/1-collect.py`; the catch-all subcategory is `-1`. -/
abbrev RKey := String × Int × Int

/-- The shared mutable state of a collection run: the `seen` set of keys,
the `seen_per_ruid_cat` set of `(ruid, category)` pairs, and the rows
appended to the output CSV (represented by their keys). -/
structure CollectState where
  seen : List RKey
  seenPairs : List (String × Int)
  rows : List RKey
deriving DecidableEq

/-- The per-record commit logic of `_worker_fetch_next_page` (lines
621-638 of `steps/1-collect.py`, identical in `_process_one_segment` and
the retry pass): for the catch-all subcategory `-1`, skip when
`(ruid, category)` was already seen under any subcategory; for a specific
subcategory, skip when the full key was seen; otherwise record the key in
both sets and append one output row. -/
def commitRuid (st : CollectState) (e : RKey) : CollectState :=
  match e with
  | (r, c, s) =>
    if s = -1 then
      if (r, c) ∈ st.seenPairs then st
      else ⟨(r, c, s) :: st.seen, (r, c) :: st.seenPairs, st.rows ++ [(r, c, s)]⟩
    else
      if (r, c, s) ∈ st.seen then st
      else ⟨(r, c, s) :: st.seen, (r, c) :: st.seenPairs, st.rows ++ [(r, c, s)]⟩

/-- A collection run processes its stream of extracted record keys in
order through the commit logic. -/
def collectRun (st : CollectState) (es : List RKey) : CollectState :=
  es.foldl commitRuid st

/-- Fresh run: no pre-existing output file. -/
def emptyCollectState : CollectState := ⟨[], [], []⟩

/-- Re-run against an existing output file: `load_existing_ruids_from_csv`
seeds `seen` with the keys of the existing rows, and
`seen_per_ruid_cat = {(r, c) for (r, c, s) in seen}` (line 894). -/
def initialCollectState (priorRows : List RKey) : CollectState :=
  ⟨priorRows, priorRows.map (fun k => (k.1, k.2.1)), []⟩

/-- Run invariant of the commit logic: a specific seen key has its pair
recorded; a catch-all row has its pair recorded; every row key is seen;
no row key is duplicated. -/
def CollectInv (st : CollectState) : Prop :=
  (∀ r c s, s ≠ -1 → (r, c, s) ∈ st.seen → (r, c) ∈ st.seenPairs) ∧
  (∀ r c, (r, c, -1) ∈ st.rows → (r, c) ∈ st.seenPairs) ∧
  (∀ k, k ∈ st.rows → k ∈ st.seen) ∧
  (∀ k : RKey, st.rows.count k ≤ 1)

/-- For runs started from the empty state, the tracking sets are backed by
written rows: every seen key is a row and every seen pair comes from a
row. -/
def SeenSubRows (st : CollectState) : Prop :=
  (∀ k, k ∈ st.seen → k ∈ st.rows) ∧
  (∀ p : String × Int, p ∈ st.seenPairs → ∃ s, (p.1, p.2, s) ∈ st.rows)

/-- The key-dedup pass of the final merge (lines 1084-1120 of
`steps/1-collect.py`): keep the first row for each key, given the set of
keys already kept. -/
def dedupKeepFirst : List RKey → List RKey → List RKey
  | _, [] => []
  | seenKeys, k :: rest =>
    if k ∈ seenKeys then dedupKeepFirst seenKeys rest
    else k :: dedupKeepFirst (k :: seenKeys) rest

/-- Final merge of collection: existing output rows followed by the new
rows of this run, deduplicated by key keeping the first occurrence. -/
def mergeDedup (existingRows newRows : List RKey) : List RKey :=
  dedupKeepFirst [] (existingRows ++ newRows)

/-! ## Association lists (Python `dict` lookups) -/

/-- First-match lookup in an association list. -/
def alookup {α β : Type} [DecidableEq α] : List (α × β) → α → Option β
  | [], _ => none
  | p :: rest, k => if p.1 = k then some p.2 else alookup rest k

/-! ## Boundary table merge (`steps/0-find_last_pages.py`, lines 264-336) -/

/-- A boundary table row value: `(category_name, subcategory_name,
last_page)`, keyed by `(category_id, subcategory_id)`. -/
abbrev SegVal := String × String × Nat

/-- Python `dict` assignment `existing[(cid, sid)] = value`: replace the
value in place if the key exists, else append. -/
def dictInsertSeg (m : List ((Int × Int) × SegVal)) (k : Int × Int) (v : SegVal) :
    List ((Int × Int) × SegVal) :=
  if (alookup m k).isSome then m.map (fun p => if p.1 = k then (k, v) else p)
  else m ++ [(k, v)]

/-- The merge-on-write of step 0's `main`: load the existing table, then
`existing[(cid, sid)] = (cat_name, sub_name, last)` for each freshly
discovered segment, and rewrite the whole table. -/
def mergeLastPages (existing : List ((Int × Int) × SegVal))
    (results : List ((Int × Int) × SegVal)) : List ((Int × Int) × SegVal) :=
  results.foldl (fun m kv => dictInsertSeg m kv.1 kv.2) existing

/-! ## File-system effects of the enrichment writer (`_writer_worker`) -/

/-- File-system operations performed by the enrichment writer: create or
truncate a file, append to it, atomically rename one path onto another
(`os.replace`), and delete a path (`os.unlink`). -/
inductive FsOp where
  | writeF (path content : String)
  | appendF (path content : String)
  | replaceF (src dst : String)
  | unlinkF (path : String)
deriving DecidableEq

/-- Effect of one operation on a file system, modelled as a partial map
from paths to contents. -/
def applyFsOp (fs : String → Option String) : FsOp → String → Option String
  | .writeF p c => fun q => if q = p then some c else fs q
  | .appendF p c => fun q => if q = p then some ((fs p).getD "" ++ c) else fs q
  | .replaceF s d => fun q => if q = d then fs s else if q = s then none else fs q
  | .unlinkF p => fun q => if q = p then none else fs q

/-- Run a sequence of file-system operations. -/
def runFsOps (fs : String → Option String) (ops : List FsOp) :
    String → Option String :=
  ops.foldl applyFsOp fs

/-- Everything the enrichment writer does before its final rename: create
the temp file (`tempfile.mkstemp` + open for write), then append the
header and every flushed row chunk to it. -/
def enrichWriterInitOps (temp : String) (chunks : List String) : List FsOp :=
  FsOp.writeF temp "" :: chunks.map (FsOp.appendF temp)

/-- The full operation trace of a successful `_writer_worker` run
(lines 205-258 of `steps/2-enrich.py`): all writes go to the temp path,
and only the final `os.replace(temp_path, output_path)` touches the
output path. -/
def enrichWriterOps (temp out : String) (chunks : List String) : List FsOp :=
  enrichWriterInitOps temp chunks ++ [FsOp.replaceF temp out]

/-- A concrete file system for the C8 witness: only `"out.csv"` exists,
holding `"OLD"`. -/
def cexFs : String → Option String :=
  fun p => if p = "out.csv" then some "OLD" else none

/-! ## Enrichment writer (`steps/2-enrich.py`) -/

/-- Python `str.strip()` on each side of a string. -/
def pyStrip (s : String) : String :=
  String.mk (((s.toList.dropWhile Char.isWhitespace).reverse.dropWhile
    Char.isWhitespace).reverse)

/-- Python `str.lower()`. -/
def pyLower (s : String) : String :=
  String.mk (s.toList.map Char.toLower)

/-- Membership in `"0123456789abcdef"`. -/
def isHexDigitChar (c : Char) : Bool :=
  c.isDigit || c = 'a' || c = 'b' || c = 'c' || c = 'd' || c = 'e' || c = 'f'

/-- `_normalize_ruid`: keep only hex characters of the stripped, lowered
string, and keep the last 32 of them when there are at least 32. -/
def normalizeRuid (ruid : String) : String :=
  if ruid = "" then ""
  else
    let hexOnly := (pyLower (pyStrip ruid)).toList.filter isHexDigitChar
    if 32 ≤ hexOnly.length then String.mk (hexOnly.drop (hexOnly.length - 32))
    else String.mk hexOnly

/-- One CSV row of the enrichment pipeline
(`RUID, Category, Subcategory, Date, Format, Tags`). -/
structure ERow where
  ruid : String
  cat : String
  sub : String
  date : String
  fmt : String
  tags : String
deriving DecidableEq

/-- `_row_key`: `(normalized ruid, stripped category, stripped
subcategory)`. -/
def rowKey (r : ERow) : String × String × String :=
  (normalizeRuid r.ruid, pyStrip r.cat, pyStrip r.sub)

/-- Python's short-circuiting `a or b` on strings (empty is falsy). -/
def pyOr (a b : String) : String := if a ≠ "" then a else b

/-- `_row_has_enrichment`:
`bool((row["Date"] or row["Format"] or row["Tags"] or "").strip())`. -/
def rowHasEnrichment (r : ERow) : Bool :=
  pyStrip (pyOr r.date (pyOr r.fmt r.tags)) ≠ ""

/-- Number of non-empty fields among Date/Format/Tags of a row. -/
def nonEmptyFieldCount (r : ERow) : Nat :=
  (if r.date = "" then 0 else 1) + (if r.fmt = "" then 0 else 1) +
    (if r.tags = "" then 0 else 1)

/-- Detail info fetched for one RUID: `(date, format, tags)`. -/
abbrev EInfo := String × String × String

/-- `_write_row` (lines 166-198 of `steps/2-enrich.py`): write one row
with precedence fresh API info > existing enriched output row > input
row.  Returns the row actually written. -/
def writeRowOutput (outputRows : List ((String × String × String) × ERow))
    (r : ERow) (info : Option EInfo) : ERow :=
  match info with
  | some (d, fm, t) => { r with date := d, fmt := fm, tags := t }
  | none =>
    match alookup outputRows (rowKey r) with
    | some ex => if rowHasEnrichment ex then ex else r
    | none => r

/-- Python `dict.update` for one key: overwrite in place or append. -/
def dictUpdate (m : List (String × EInfo)) (kv : String × EInfo) :
    List (String × EInfo) :=
  if (alookup m kv.1).isSome then m.map (fun p => if p.1 = kv.1 then kv else p)
  else m ++ [kv]

/-- Writer state: the `enriched` dict accumulated from queue items, the
rows already written (in order), and the input rows not yet written
(`rows[next_row:]`). -/
structure WriterState where
  enriched : List (String × EInfo)
  out : List ERow
  pending : List ERow

/-- The inner drain loop of `_writer_worker`: write consecutive pending
rows as long as their normalized RUID is in `enriched`; stop at the first
row whose RUID has no result yet. -/
def drainLoop (outputRows : List ((String × String × String) × ERow))
    (enr : List (String × EInfo)) : List ERow → List ERow × List ERow
  | [] => ([], [])
  | r :: rest =>
    match alookup enr (normalizeRuid r.ruid) with
    | none => ([], r :: rest)
    | some info =>
      let res := drainLoop outputRows enr rest
      (writeRowOutput outputRows r (some info) :: res.1, res.2)

/-- Processing one queue item: `enriched.update(item)` then drain. -/
def writerStep (outputRows : List ((String × String × String) × ERow))
    (st : WriterState) (item : List (String × EInfo)) : WriterState :=
  let enr := item.foldl dictUpdate st.enriched
  let dr := drainLoop outputRows enr st.pending
  ⟨enr, st.out ++ dr.1, dr.2⟩

/-- The whole `_writer_worker` run: consume every queue item in arrival
order, then (on the sentinel) flush all remaining rows with whatever
detail has arrived.  Returns the full output row sequence. -/
def writerRun (outputRows : List ((String × String × String) × ERow))
    (items : List (List (String × EInfo))) (rows : List ERow) : List ERow :=
  let st := items.foldl (writerStep outputRows) ⟨[], [], rows⟩
  st.out ++
    st.pending.map (fun r =>
      writeRowOutput outputRows r (alookup st.enriched (normalizeRuid r.ruid)))

/-- All RUID keys occurring in any queue item. -/
def itemKeys (items : List (List (String × EInfo))) : List String :=
  items.foldr (fun it acc => it.map Prod.fst ++ acc) []

/-- Correspondence between an input row and the output row written for
it: some info option was applied, and fresh info is only applied to RUIDs
that actually arrived on the queue (their key is in `ks`). -/
def RowWritten (outputRows : List ((String × String × String) × ERow))
    (ks : List String) (r o : ERow) : Prop :=
  ∃ info : Option EInfo, o = writeRowOutput outputRows r info ∧
    ∀ v, info = some v → normalizeRuid r.ruid ∈ ks

/-! ### Concrete data for the C5 counterexample and witnesses -/

/-- A 32-hex-character RUID used by the C5 counterexample. -/
def cexRuid : String := "aaaaaaaaaaaaaaaaaaaaaaaaaaaaaaaa"

/-- Existing enriched output row for `(cexRuid, "B", "y")`. -/
def cexExRow : ERow := ⟨cexRuid, "B", "y", "2020-01-01", "png", "tag1"⟩

/-- First input row: same RUID under category "A" (not yet enriched). -/
def cexR1 : ERow := ⟨cexRuid, "A", "x", "", "", ""⟩

/-- Second input row: the already-enriched key `(cexRuid, "B", "y")`. -/
def cexR2 : ERow := ⟨cexRuid, "B", "y", "", "", ""⟩

/-- Input rows of the counterexample run. -/
def cexRows : List ERow := [cexR1, cexR2]

/-- Queue items: one fresh fetch result for `cexRuid` with every detail
field empty (an API match with no mtime, no path and no tags). -/
def cexItems : List (List (String × EInfo)) := [[(cexRuid, ("", "", ""))]]

/-- Pre-existing output: the enriched row for `(cexRuid, "B", "y")`. -/
def cexOutputRows : List ((String × String × String) × ERow) :=
  [((cexRuid, "B", "y"), cexExRow)]

/-- A distinct 32-hex RUID for the C5 witness. -/
def witRuid : String := "bbbbbbbbbbbbbbbbbbbbbbbbbbbbbbbb"

/-- Existing enriched output row of the C5 witness. -/
def witExRow : ERow := ⟨witRuid, "B", "y", "2021-02-02", "ogg", "tag2"⟩

/-- Input row of the C5 witness (key already enriched in the output). -/
def witRow : ERow := ⟨witRuid, "B", "y", "", "", ""⟩

/-- Pre-existing output of the C5 witness. -/
def witOutputRows : List ((String × String × String) × ERow) :=
  [((witRuid, "B", "y"), witExRow)]

/-- Queue items of the C5 witness: a result for a different RUID only. -/
def witItems : List (List (String × EInfo)) :=
  [[("cccccccccccccccccccccccccccccccc", ("1", "2", "3"))]]

/-! ## Theorems -/

/-- **C1.** During collection into an output file (so the discovery-phase
hint `step0_last_page` is present): a fetched page whose extraction yields
between 1 and 149 records is treated as the partition's final page iff its
page number is at least the hint; a failed fetch or a zero-record page is
never final — it is enqueued as a retry ticket and the walk continues. -/
theorem collect_end_of_partition_policy (page hint n : Nat)
    (h1 : 1 ≤ n) (h2 : n ≤ 149) :
    (workerPageAction (.ok n) page (some hint) = .commitFinal ↔ hint ≤ page) ∧
    workerPageAction .fail page (some hint) = .enqueueRetryContinue ∧
    workerPageAction (.ok 0) page (some hint) = .enqueueRetryContinue := by
  refine ⟨?_, rfl, rfl⟩
  have hn0 : ¬ n = 0 := by omega
  have hnlt : n < MAX_ITEMS_PER_PAGE := by
    simp only [MAX_ITEMS_PER_PAGE]; omega
  by_cases hle : hint ≤ page
  · simp [workerPageAction, isLastPage, hn0, hnlt, hle]
  · simp [workerPageAction, isLastPage, hn0, hnlt, hle]

/-- Witness for `collect_end_of_partition_policy` at page 7, hint 5,
3 records. -/
theorem collect_end_of_partition_policy_witness :
    (1 ≤ 3 ∧ 3 ≤ 149) ∧
    ((workerPageAction (.ok 3) 7 (some 5) = .commitFinal ↔ 5 ≤ 7) ∧
      workerPageAction .fail 7 (some 5) = .enqueueRetryContinue ∧
      workerPageAction (.ok 0) 7 (some 5) = .enqueueRetryContinue) :=
  ⟨by decide, collect_end_of_partition_policy 7 5 3 (by decide) (by decide)⟩

/-- **C3 counterexample.** The claim says a dequeued ticket is discarded
without a fetch exactly when its page exceeds
`max_page_with_content + SKEPTICAL_PAGE_BUFFER` (buffer 10).  At
`max_page_with_content = 0`, page 15 exceeds that bound, yet the code does
not discard the ticket (it fetches and commits): the code's discard bound
is `RETRY_PAGE_BUFFER = 20`, not the skeptical buffer 10. -/
theorem retry_discard_buffer_counterexample :
    0 + SKEPTICAL_PAGE_BUFFER < 15 ∧
    retryDequeueStep 0 15 1 false (.ok 3) ≠ .discard := by decide

/-- **C3 (amended).** A dequeued retry ticket for page `page` is discarded
without any fetch attempt exactly when `page` exceeds the partition's
maximum page number known to have yielded records plus the retry page
buffer of 20 pages (`RETRY_PAGE_BUFFER`). -/
theorem retry_discard_exactly_past_buffer (maxP page attempts : Nat)
    (indef : Bool) (res : FetchResult) :
    retryDequeueStep maxP page attempts indef res = .discard ↔
      maxP + RETRY_PAGE_BUFFER < page := by
  unfold retryDequeueStep
  by_cases h : maxP + RETRY_PAGE_BUFFER < page
  · simp [h]
  · simp only [h, if_neg h, iff_false]
    cases res with
    | fail =>
      by_cases ha : attempts + 1 <
          (if indef = true then INDEFINITE_RETRY_MAX_ATTEMPTS else MAX_PAGE_ATTEMPTS) <;>
        simp [ha]
    | ok n =>
      by_cases hn : n = 0
      · by_cases ha : attempts + 1 <
            (if indef = true then INDEFINITE_RETRY_MAX_ATTEMPTS else MAX_PAGE_ATTEMPTS) <;>
          simp [hn, ha]
      · simp [hn]

/-- Witness for `retry_discard_exactly_past_buffer`: with no hypotheses to
discharge beyond concrete instantiation, the iff is applied at
`maxP = 4`, `page 30`. -/
theorem retry_discard_exactly_past_buffer_witness :
    retryDequeueStep 4 30 1 true .fail = .discard ↔ 4 + RETRY_PAGE_BUFFER < 30 :=
  retry_discard_exactly_past_buffer 4 30 1 true .fail

/-- The binary-search loop never moves `low` down. -/
theorem binSearchGo_ge (f : Nat → Nat) :
    ∀ fuel low high, low ≤ binSearchGo f fuel low high := by
  intro fuel
  induction fuel with
  | zero => intro low high; simp [binSearchGo]
  | succ n ih =>
    intro low high
    simp only [binSearchGo]
    split
    · next hlt =>
      split
      · next hm =>
        have h1 : low ≤ (low + high + 1) / 2 := by omega
        exact le_trans h1 (ih _ _)
      · exact ih _ _
    · exact le_refl _

/-- The binary-search loop never moves its result above `high`. -/
theorem binSearchGo_le (f : Nat → Nat) :
    ∀ fuel low high, low ≤ high → binSearchGo f fuel low high ≤ high := by
  intro fuel
  induction fuel with
  | zero => intro low high h; simpa [binSearchGo] using h
  | succ n ih =>
    intro low high h
    simp only [binSearchGo]
    split
    · next hlt =>
      split
      · next hm => exact ih _ _ (by omega)
      · exact le_trans (ih _ _ (by omega)) (by omega)
    · exact h

/-- The candidate produced by the binary-search loop is either the initial
`low` (never probed) or a page that was probed non-empty. -/
theorem binSearchGo_low_or_pos (f : Nat → Nat) :
    ∀ fuel low high,
      binSearchGo f fuel low high = low ∨ 0 < f (binSearchGo f fuel low high) := by
  intro fuel
  induction fuel with
  | zero => intro low high; simp [binSearchGo]
  | succ n ih =>
    intro low high
    simp only [binSearchGo]
    split
    · next hlt =>
      split
      · next hm =>
        rcases ih ((low + high + 1) / 2) high with h | h
        · right; rw [h]; exact hm
        · right; exact h
      · exact ih _ _
    · left; rfl

/-- With adequate fuel, the candidate is either the initial `high` (the
right end never shrank) or a page whose successor was probed empty. -/
theorem binSearchGo_high_or_next (f : Nat → Nat) :
    ∀ fuel low high, high - low ≤ fuel → low ≤ high →
      binSearchGo f fuel low high = high ∨
        f (binSearchGo f fuel low high + 1) = 0 := by
  intro fuel
  induction fuel with
  | zero =>
    intro low high hf h
    have : low = high := by omega
    simp [binSearchGo, this]
  | succ n ih =>
    intro low high hf h
    simp only [binSearchGo]
    split
    · next hlt =>
      split
      · next hm =>
        have hmid1 : low + 1 ≤ (low + high + 1) / 2 := by omega
        have hmid2 : (low + high + 1) / 2 ≤ high := by omega
        exact ih _ _ (by omega) (by omega)
      · next hm =>
        have hmid1 : low + 1 ≤ (low + high + 1) / 2 := by omega
        have hmid2 : (low + high + 1) / 2 ≤ high := by omega
        rcases ih low ((low + high + 1) / 2 - 1) (by omega) (by omega) with h1 | h1
        · right
          rw [h1]
          have : (low + high + 1) / 2 - 1 + 1 = (low + high + 1) / 2 := by omega
          rw [this]
          omega
        · right; exact h1
    · next hlt =>
      left; omega

/-- Case analysis of the confirmation loop with at least one remaining
attempt: it confirms the candidate, falls back to `candidate - 1` (resp.
`none`) with the candidate probed empty, or restarts with
`candidate + 1` probed non-empty. -/
theorem confirmAttempts_spec (f : Nat → Nat) (fe c : Nat) :
    ∀ n,
      (confirmAttempts f fe c (n + 1) = .done (some c) ∧ 0 < f c ∧ f (c + 1) = 0) ∨
      (confirmAttempts f fe c (n + 1) = .done (some (c - 1)) ∧ f c = 0 ∧ 1 < c) ∨
      (confirmAttempts f fe c (n + 1) = .done none ∧ f c = 0 ∧ ¬ 1 < c) ∨
      (confirmAttempts f fe c (n + 1) = .restart (c + 1) (fe - 1) ∧ 0 < f (c + 1)) := by
  intro n
  induction n with
  | zero =>
    simp only [confirmAttempts]
    by_cases h1 : 0 < f c ∧ f (c + 1) = 0
    · left; simp [h1]
    · by_cases h2 : f c = 0
      · by_cases h3 : 1 < c
        · right; left; simp [h1, h2, h3]
        · right; right; left; simp [h1, h2, h3]
      · have h3 : 0 < f (c + 1) := by omega
        right; right; right
        refine ⟨?_, h3⟩
        simp [h1, h2, h3]
  | succ m ih =>
    simp only [confirmAttempts]
    by_cases h1 : 0 < f c ∧ f (c + 1) = 0
    · left; simp [h1]
    · by_cases h3 : 0 < f (c + 1)
      · right; right; right
        rw [if_neg h1, if_neg (by omega), if_pos h3]
        exact ⟨rfl, h3⟩
      · -- remaining case: `f c = 0` and `f (c + 1) = 0`, loop continues
        have h2 : f c = 0 ∧ ¬ (m + 1 = 0) := by omega
        rw [if_neg h1, if_neg (by omega), if_neg h3]
        exact ih

/-- One iteration of the outer loop, entered with `high = first_empty - 1`
and a `low` that is either 1 or known non-empty, fully determines the
result: it is `none`, a confirmed candidate, or `first_empty - 1` with
`first_empty` probed non-empty (range exhausted on the right).  No
recursive outer iteration can occur with a deterministic fetch. -/
theorem phase2Outer_succ_spec (f : Nat → Nat) (fe fuel low high c0 L : Nat)
    (hlh : low ≤ high) (hhfe : high = fe - 1) (h1le : 1 ≤ low)
    (hlow : low = 1 ∨ 0 < f low)
    (h : phase2Outer f fe (fuel + 1) low high c0 = some L) :
    (0 < f L ∧ f (L + 1) = 0) ∨ (L = fe - 1 ∧ 0 < f fe) := by
  have hge : low ≤ binSearchLoop f low high := binSearchGo_ge f _ low high
  have hle : binSearchLoop f low high ≤ high := binSearchGo_le f _ low high hlh
  have hlp : binSearchLoop f low high = low ∨ 0 < f (binSearchLoop f low high) :=
    binSearchGo_low_or_pos f _ low high
  have hhn : binSearchLoop f low high = high ∨
      f (binSearchLoop f low high + 1) = 0 :=
    binSearchGo_high_or_next f _ low high (le_refl _) hlh
  simp only [phase2Outer] at h
  rcases confirmAttempts_spec f fe (binSearchLoop f low high) 2 with
    ⟨he, hp, hn⟩ | ⟨he, hz, hc⟩ | ⟨he, hz, hc⟩ | ⟨he, hp⟩
  · rw [show CONFIRM_ATTEMPTS = 2 + 1 from rfl, he] at h
    left
    have h' : some (binSearchLoop f low high) = some L := h
    have hL : binSearchLoop f low high = L := by simpa using h'
    rw [← hL]; exact ⟨hp, hn⟩
  · -- candidate empty on the final attempt: impossible here, the candidate
    -- is `low` (= 1 or non-empty) or was probed non-empty
    exfalso
    rcases hlp with h1 | h1
    · rcases hlow with h2 | h2
      · omega
      · rw [h1] at hz; omega
    · omega
  · rw [show CONFIRM_ATTEMPTS = 2 + 1 from rfl, he] at h
    have h' : (none : Option Nat) = some L := h
    exact absurd h' (by simp)
  · -- restart: the search range is exhausted, `candidate = fe - 1`
    have hceq : binSearchLoop f low high = fe - 1 := by
      rcases hhn with h1 | h1
      · omega
      · omega
    rw [show CONFIRM_ATTEMPTS = 2 + 1 from rfl, he] at h
    have h' : (if fe - 1 < binSearchLoop f low high + 1 then
        some (binSearchLoop f low high)
      else phase2Outer f fe fuel (binSearchLoop f low high + 1) (fe - 1)
        (binSearchLoop f low high)) = some L := h
    rw [if_pos (by omega)] at h'
    right
    have hL : binSearchLoop f low high = L := by simpa using h'
    have hfe2 : 2 ≤ fe := by omega
    constructor
    · omega
    · have hc1 : binSearchLoop f low high + 1 = fe := by omega
      rw [hc1] at hp
      exact hp

/-- **C2 counterexample.** The claim states that
`phase2_binary_search_to_last` always returns `none` or a page `L` whose
confirming fetch was non-empty with `L + 1` empty.  With the deterministic
fetch `cexFetch` (page 1 empty, page 2 non-empty) and `first_empty = 2`,
the code returns `some 1`, yet page 1 fetches empty and page 2 fetches
non-empty: the `if low > high: return candidate` path returns an
unconfirmed candidate. -/
theorem find_last_page_counterexample :
    phase2_binary_search_to_last cexFetch 2 = some 1 ∧
    cexFetch 1 = 0 ∧ 0 < cexFetch 2 := by decide

/-- **C2 (amended).** For every partition (modelled by its deterministic
fetch function `f` and phase-1 result `first_empty`),
`phase2_binary_search_to_last` returns `none` or a page `L` such that
either the confirming fetch of `L` yielded at least one record and that of
`L + 1` yielded zero, or `L = first_empty - 1` with the confirming fetch
of `first_empty` non-empty (search range exhausted on the right). -/
theorem find_last_page_confirmed (f : Nat → Nat) (firstEmpty L : Nat)
    (h : phase2_binary_search_to_last f firstEmpty = some L) :
    (0 < f L ∧ f (L + 1) = 0) ∨ (L = firstEmpty - 1 ∧ 0 < f firstEmpty) := by
  unfold phase2_binary_search_to_last at h
  by_cases hfe : firstEmpty - 1 < 1
  · rw [if_pos hfe] at h; exact absurd h (by simp)
  · rw [if_neg hfe] at h
    exact phase2Outer_succ_spec f firstEmpty 19 1 (firstEmpty - 1) 1 L
      (by omega) rfl (le_refl 1) (Or.inl rfl) h

/-- Witness for `find_last_page_confirmed`: with `witFetch` (pages 1-3
non-empty) and `first_empty = 4` the search returns `some 3`, and the
guaranteed disjunction holds there. -/
theorem find_last_page_confirmed_witness :
    phase2_binary_search_to_last witFetch 4 = some 3 ∧
    ((0 < witFetch 3 ∧ witFetch 4 = 0) ∨ (3 = 4 - 1 ∧ 0 < witFetch 4)) :=
  ⟨by decide, find_last_page_confirmed witFetch 4 3 (by decide)⟩

/-- Generalised form of the stdout-walk theorem: starting from any page,
if every page before `p` is full and `p` itself fails or is empty, the
walk fetches exactly the pages up to `p` and creates no retry ticket. -/
theorem stdoutWalk_reaches_first_bad (f : Nat → Option Nat) :
    ∀ fuel page p, page ≤ p →
      (∀ q, page ≤ q → q < p → ∃ n, f q = some n ∧ MAX_ITEMS_PER_PAGE ≤ n) →
      (f p = none ∨ f p = some 0) → p < page + fuel →
      stdoutWalk f fuel page = (List.range' page (p + 1 - page), []) := by
  intro fuel
  induction fuel with
  | zero => intro page p h1 _ _ h4; omega
  | succ m ih =>
    intro page p h1 hfull hbad h4
    by_cases hpp : page = p
    · subst hpp
      rcases hbad with hb | hb <;>
        simp [stdoutWalk, hb, List.range']
    · have hlt : page < p := by omega
      obtain ⟨n, hfq, hn⟩ := hfull page (le_refl _) hlt
      have hn0 : ¬ n = 0 := by
        simp only [MAX_ITEMS_PER_PAGE] at hn; omega
      have hnlt : ¬ n < MAX_ITEMS_PER_PAGE := by omega
      have hrec : stdoutWalk f m (page + 1) = (List.range' (page + 1) (p + 1 - (page + 1)), []) :=
        ih (page + 1) p (by omega) (fun q hq1 hq2 => hfull q (by omega) hq2) hbad (by omega)
      simp only [stdoutWalk, hfq, hn0, if_false, hnlt, hrec]
      have hcount : p + 1 - page = (p + 1 - (page + 1)) + 1 := by omega
      rw [hcount, List.range'_succ]

/-- **C10.** In stdout mode (collection invoked without an output file),
a partition's walk, when every page before `p` is full, terminates at
page `p` — the first page whose fetch fails or whose extraction yields
zero records: page `p` is the last page fetched, no later page of the
partition is fetched, and no retry ticket is created. -/
theorem stdout_walk_stops_at_first_bad (f : Nat → Option Nat) (p fuel : Nat)
    (h1 : 1 ≤ p)
    (hfull : ∀ q, 1 ≤ q → q < p → ∃ n, f q = some n ∧ MAX_ITEMS_PER_PAGE ≤ n)
    (hbad : f p = none ∨ f p = some 0)
    (hfuel : p ≤ fuel) :
    stdoutWalk f fuel 1 = (List.range' 1 p, []) := by
  have h := stdoutWalk_reaches_first_bad f fuel 1 p h1 hfull hbad (by omega)
  simpa [Nat.add_comm] using h

/-- Witness for `stdout_walk_stops_at_first_bad`: with pages 1-2 full and
page 3 empty, the stdout walk fetches exactly pages 1, 2, 3 and no ticket. -/
theorem stdout_walk_stops_at_first_bad_witness :
    stdoutWalk witStdoutFetch 10 1 = (List.range' 1 3, []) :=
  stdout_walk_stops_at_first_bad witStdoutFetch 3 10 (by decide)
    (by
      intro q hq1 hq2
      refine ⟨200, ?_, by decide⟩
      have : q ≤ 2 := by omega
      simp [witStdoutFetch, this])
    (by decide) (by decide)

/-- `collectRun` on a cons processes the head event first. -/
theorem collectRun_cons (st : CollectState) (e : RKey) (es : List RKey) :
    collectRun st (e :: es) = collectRun (commitRuid st e) es := rfl

/-- `collectRun` on an append runs the two halves in sequence. -/
theorem collectRun_append (st : CollectState) (es1 es2 : List RKey) :
    collectRun st (es1 ++ es2) = collectRun (collectRun st es1) es2 := by
  simp [collectRun, List.foldl_append]

/-- The commit logic never removes a key from `seen`. -/
theorem commitRuid_seen_mono {st : CollectState} {e x : RKey}
    (hx : x ∈ st.seen) : x ∈ (commitRuid st e).seen := by
  obtain ⟨r, c, s⟩ := e
  simp only [commitRuid]
  split
  · split
    · exact hx
    · exact List.mem_cons_of_mem _ hx
  · split
    · exact hx
    · exact List.mem_cons_of_mem _ hx

/-- The commit logic never removes a pair from `seen_per_ruid_cat`. -/
theorem commitRuid_pairs_mono {st : CollectState} {e : RKey} {p : String × Int}
    (hp : p ∈ st.seenPairs) : p ∈ (commitRuid st e).seenPairs := by
  obtain ⟨r, c, s⟩ := e
  simp only [commitRuid]
  split
  · split
    · exact hp
    · exact List.mem_cons_of_mem _ hp
  · split
    · exact hp
    · exact List.mem_cons_of_mem _ hp

/-- A row key produced by one commit is either an old row or the committed
event itself. -/
theorem commitRuid_rows_sub {st : CollectState} {e x : RKey}
    (hx : x ∈ (commitRuid st e).rows) : x ∈ st.rows ∨ x = e := by
  obtain ⟨r, c, s⟩ := e
  simp only [commitRuid] at hx
  split at hx
  · split at hx
    · exact Or.inl hx
    · rcases List.mem_append.mp hx with h | h
      · exact Or.inl h
      · right; simpa using h
  · split at hx
    · exact Or.inl hx
    · rcases List.mem_append.mp hx with h | h
      · exact Or.inl h
      · right; simpa using h

/-- `seen` only grows along a run. -/
theorem collectRun_seen_mono :
    ∀ (es : List RKey) (st : CollectState) (x : RKey),
      x ∈ st.seen → x ∈ (collectRun st es).seen := by
  intro es
  induction es with
  | nil => intro st x hx; exact hx
  | cons e rest ih =>
    intro st x hx
    rw [collectRun_cons]
    exact ih _ _ (commitRuid_seen_mono hx)

/-- `seen_per_ruid_cat` only grows along a run. -/
theorem collectRun_pairs_mono :
    ∀ (es : List RKey) (st : CollectState) (p : String × Int),
      p ∈ st.seenPairs → p ∈ (collectRun st es).seenPairs := by
  intro es
  induction es with
  | nil => intro st p hp; exact hp
  | cons e rest ih =>
    intro st p hp
    rw [collectRun_cons]
    exact ih _ _ (commitRuid_pairs_mono hp)

/-- Every row key written by a run is an initial row or one of its
events. -/
theorem collectRun_rows_sub :
    ∀ (es : List RKey) (st : CollectState) (x : RKey),
      x ∈ (collectRun st es).rows → x ∈ st.rows ∨ x ∈ es := by
  intro es
  induction es with
  | nil => intro st x hx; exact Or.inl hx
  | cons e rest ih =>
    intro st x hx
    rw [collectRun_cons] at hx
    rcases ih _ _ hx with h | h
    · rcases commitRuid_rows_sub h with h1 | h1
      · exact Or.inl h1
      · exact Or.inr (by rw [h1]; exact List.mem_cons_self _ _)
    · exact Or.inr (List.mem_cons_of_mem _ h)

/-- Committing a specific-subcategory event makes its key seen. -/
theorem commitRuid_self_seen {st : CollectState} {r : String} {c s : Int}
    (hs : s ≠ -1) : (r, c, s) ∈ (commitRuid st (r, c, s)).seen := by
  simp only [commitRuid, if_neg hs]
  split
  · next h => exact h
  · exact List.mem_cons_self _ _

/-- After a run processes a specific-subcategory event, its key is seen. -/
theorem collectRun_event_seen :
    ∀ (es : List RKey) (st : CollectState) (r : String) (c s : Int),
      (r, c, s) ∈ es → s ≠ -1 → (r, c, s) ∈ (collectRun st es).seen := by
  intro es
  induction es with
  | nil => intro st r c s h _; exact absurd h (List.not_mem_nil _)
  | cons e rest ih =>
    intro st r c s hmem hs
    rw [collectRun_cons]
    rcases List.mem_cons.mp hmem with he | hmem'
    · subst he
      exact collectRun_seen_mono rest _ _ (commitRuid_self_seen hs)
    · exact ih _ _ _ _ hmem' hs

/-- One commit preserves the run invariant. -/
theorem commitRuid_inv {st : CollectState} (e : RKey) (h : CollectInv st) :
    CollectInv (commitRuid st e) := by
  obtain ⟨r, c, s⟩ := e
  obtain ⟨i1, i2, i3, i4⟩ := h
  by_cases hs : s = -1
  · subst hs
    by_cases hp : (r, c) ∈ st.seenPairs
    · have hc : commitRuid st (r, c, -1) = st := by
        simp [commitRuid, hp]
      rw [hc]; exact ⟨i1, i2, i3, i4⟩
    · have hc : commitRuid st (r, c, -1) =
          ⟨(r, c, -1) :: st.seen, (r, c) :: st.seenPairs, st.rows ++ [(r, c, -1)]⟩ := by
        simp [commitRuid, hp]
      rw [hc]
      refine ⟨?_, ?_, ?_, ?_⟩
      · intro r' c' s' hs' hmem
        rcases List.mem_cons.mp hmem with he | hmem'
        · exfalso
          simp only [Prod.mk.injEq] at he
          exact hs' he.2.2
        · exact List.mem_cons_of_mem _ (i1 r' c' s' hs' hmem')
      · intro r' c' hmem
        rcases List.mem_append.mp hmem with h1 | h1
        · exact List.mem_cons_of_mem _ (i2 r' c' h1)
        · simp only [List.mem_singleton, Prod.mk.injEq] at h1
          rw [h1.1, h1.2.1]
          exact List.mem_cons_self _ _
      · intro k hk
        rcases List.mem_append.mp hk with h1 | h1
        · exact List.mem_cons_of_mem _ (i3 k h1)
        · rw [List.mem_singleton.mp h1]
          exact List.mem_cons_self _ _
      · intro k
        rw [List.count_append]
        by_cases hk : k = (r, c, -1)
        · subst hk
          have h0 : st.rows.count (r, c, -1) = 0 :=
            List.count_eq_zero.mpr (fun hmem => hp (i2 r c hmem))
          have h1 : ([((r : String), (c : Int), (-1 : Int))] : List RKey).count (r, c, -1) = 1 := by
            simp
          omega
        · have h1 : ([((r : String), (c : Int), (-1 : Int))] : List RKey).count k = 0 :=
            List.count_eq_zero.mpr (by simp [hk])
          have h2 := i4 k
          omega
  · by_cases hm : (r, c, s) ∈ st.seen
    · have hc : commitRuid st (r, c, s) = st := by
        simp [commitRuid, hs, hm]
      rw [hc]; exact ⟨i1, i2, i3, i4⟩
    · have hc : commitRuid st (r, c, s) =
          ⟨(r, c, s) :: st.seen, (r, c) :: st.seenPairs, st.rows ++ [(r, c, s)]⟩ := by
        simp [commitRuid, hs, hm]
      rw [hc]
      refine ⟨?_, ?_, ?_, ?_⟩
      · intro r' c' s' hs' hmem
        rcases List.mem_cons.mp hmem with he | hmem'
        · simp only [Prod.mk.injEq] at he
          rw [he.1, he.2.1]
          exact List.mem_cons_self _ _
        · exact List.mem_cons_of_mem _ (i1 r' c' s' hs' hmem')
      · intro r' c' hmem
        rcases List.mem_append.mp hmem with h1 | h1
        · exact List.mem_cons_of_mem _ (i2 r' c' h1)
        · exfalso
          simp only [List.mem_singleton, Prod.mk.injEq] at h1
          exact hs h1.2.2.symm
      · intro k hk
        rcases List.mem_append.mp hk with h1 | h1
        · exact List.mem_cons_of_mem _ (i3 k h1)
        · rw [List.mem_singleton.mp h1]
          exact List.mem_cons_self _ _
      · intro k
        rw [List.count_append]
        by_cases hk : k = (r, c, s)
        · subst hk
          have h0 : st.rows.count (r, c, s) = 0 :=
            List.count_eq_zero.mpr (fun hmem => hm (i3 _ hmem))
          have h1 : ([((r : String), (c : Int), s)] : List RKey).count (r, c, s) = 1 := by
            simp
          omega
        · have h1 : ([((r : String), (c : Int), s)] : List RKey).count k = 0 :=
            List.count_eq_zero.mpr (by simp [hk])
          have h2 := i4 k
          omega

/-- The run invariant is preserved by whole runs. -/
theorem collectRun_inv :
    ∀ (es : List RKey) (st : CollectState), CollectInv st →
      CollectInv (collectRun st es) := by
  intro es
  induction es with
  | nil => intro st h; exact h
  | cons e rest ih =>
    intro st h
    rw [collectRun_cons]
    exact ih _ (commitRuid_inv e h)

/-- One commit preserves row-backing of the tracking sets. -/
theorem commitRuid_ssr {st : CollectState} (e : RKey) (h : SeenSubRows st) :
    SeenSubRows (commitRuid st e) := by
  obtain ⟨r, c, s⟩ := e
  obtain ⟨j1, j2⟩ := h
  simp only [commitRuid]
  split
  · split
    · exact ⟨j1, j2⟩
    · refine ⟨?_, ?_⟩
      · intro k hk
        rcases List.mem_cons.mp hk with he | hmem'
        · rw [he]; exact List.mem_append.mpr (Or.inr (List.mem_singleton.mpr rfl))
        · exact List.mem_append.mpr (Or.inl (j1 k hmem'))
      · intro p hp
        rcases List.mem_cons.mp hp with he | hmem'
        · refine ⟨s, ?_⟩
          rw [he]
          exact List.mem_append.mpr (Or.inr (List.mem_singleton.mpr rfl))
        · obtain ⟨s', hs'⟩ := j2 p hmem'
          exact ⟨s', List.mem_append.mpr (Or.inl hs')⟩
  · split
    · exact ⟨j1, j2⟩
    · refine ⟨?_, ?_⟩
      · intro k hk
        rcases List.mem_cons.mp hk with he | hmem'
        · rw [he]; exact List.mem_append.mpr (Or.inr (List.mem_singleton.mpr rfl))
        · exact List.mem_append.mpr (Or.inl (j1 k hmem'))
      · intro p hp
        rcases List.mem_cons.mp hp with he | hmem'
        · refine ⟨s, ?_⟩
          rw [he]
          exact List.mem_append.mpr (Or.inr (List.mem_singleton.mpr rfl))
        · obtain ⟨s', hs'⟩ := j2 p hmem'
          exact ⟨s', List.mem_append.mpr (Or.inl hs')⟩

/-- Row-backing is preserved by whole runs. -/
theorem collectRun_ssr :
    ∀ (es : List RKey) (st : CollectState), SeenSubRows st →
      SeenSubRows (collectRun st es) := by
  intro es
  induction es with
  | nil => intro st h; exact h
  | cons e rest ih =>
    intro st h
    rw [collectRun_cons]
    exact ih _ (commitRuid_ssr e h)

/-- Once a pair is recorded and no catch-all row for it exists, no later
commit writes a catch-all row for it. -/
theorem commitRuid_no_catchall {st : CollectState} {e : RKey} {r : String} {c : Int}
    (hp : (r, c) ∈ st.seenPairs) (hno : (r, c, -1) ∉ st.rows) :
    (r, c, -1) ∉ (commitRuid st e).rows := by
  obtain ⟨r', c', s'⟩ := e
  simp only [commitRuid]
  split
  · next hs' =>
    split
    · exact hno
    · next hp' =>
      intro hmem
      rcases List.mem_append.mp hmem with h1 | h1
      · exact hno h1
      · simp only [List.mem_singleton, Prod.mk.injEq] at h1
        exact hp' (by rw [← h1.1, ← h1.2.1]; exact hp)
  · next hs' =>
    split
    · exact hno
    · intro hmem
      rcases List.mem_append.mp hmem with h1 | h1
      · exact hno h1
      · simp only [List.mem_singleton, Prod.mk.injEq] at h1
        exact hs' h1.2.2.symm

/-- No catch-all row for a recorded pair is ever written by the rest of a
run. -/
theorem collectRun_no_catchall :
    ∀ (es : List RKey) (st : CollectState) (r : String) (c : Int),
      (r, c) ∈ st.seenPairs → (r, c, -1) ∉ st.rows →
      (r, c, -1) ∉ (collectRun st es).rows := by
  intro es
  induction es with
  | nil => intro st r c _ hno; exact hno
  | cons e rest ih =>
    intro st r c hp hno
    rw [collectRun_cons]
    exact ih _ _ _ (commitRuid_pairs_mono hp) (commitRuid_no_catchall hp hno)

/-- The empty state satisfies the run invariant. -/
theorem emptyCollectState_inv : CollectInv emptyCollectState := by
  refine ⟨?_, ?_, ?_, ?_⟩ <;> simp [emptyCollectState]

/-- The empty state has row-backed tracking sets. -/
theorem emptyCollectState_ssr : SeenSubRows emptyCollectState := by
  refine ⟨?_, ?_⟩ <;> simp [emptyCollectState]

/-- **C4.** Dedup law.  In a run (from a fresh output) whose event stream
walks, for category `C`, all specific subcategories before the catch-all
`-1` partition (the stream splits as `es1 ++ es2` with every `C`-event of
`es1` specific and every `C`-event of `es2` catch-all), if record `R` is
extracted both under specific subcategory `S` of `C` and under `C`'s
catch-all partition, then the output contains exactly one row keyed
`(R, C, S)` and no row keyed `(R, C, -1)`. -/
theorem collect_dedup_law (es1 es2 : List RKey) (R : String) (C S : Int)
    (hS : S ≠ -1)
    (h1 : ∀ e ∈ es1, e.2.1 = C → e.2.2 ≠ -1)
    (h2 : ∀ e ∈ es2, e.2.1 = C → e.2.2 = -1)
    (hRS : (R, C, S) ∈ es1 ++ es2)
    (hR1 : (R, C, -1) ∈ es1 ++ es2) :
    ((collectRun emptyCollectState (es1 ++ es2)).rows.count (R, C, S) = 1) ∧
    (R, C, -1) ∉ (collectRun emptyCollectState (es1 ++ es2)).rows := by
  have hRS1 : (R, C, S) ∈ es1 := by
    rcases List.mem_append.mp hRS with h | h
    · exact h
    · exact absurd (h2 _ h rfl) hS
  have hinvF : CollectInv (collectRun emptyCollectState (es1 ++ es2)) :=
    collectRun_inv _ _ emptyCollectState_inv
  have hssrF : SeenSubRows (collectRun emptyCollectState (es1 ++ es2)) :=
    collectRun_ssr _ _ emptyCollectState_ssr
  constructor
  · have hseenF : (R, C, S) ∈ (collectRun emptyCollectState (es1 ++ es2)).seen :=
      collectRun_event_seen _ _ R C S hRS hS
    have hrowF : (R, C, S) ∈ (collectRun emptyCollectState (es1 ++ es2)).rows :=
      hssrF.1 _ hseenF
    have hle := hinvF.2.2.2 (R, C, S)
    have hne : (collectRun emptyCollectState (es1 ++ es2)).rows.count (R, C, S) ≠ 0 := by
      rw [Ne, List.count_eq_zero]
      intro hcon
      exact hcon hrowF
    omega
  · have hinv1 : CollectInv (collectRun emptyCollectState es1) :=
      collectRun_inv _ _ emptyCollectState_inv
    have hseen1 : (R, C, S) ∈ (collectRun emptyCollectState es1).seen :=
      collectRun_event_seen _ _ R C S hRS1 hS
    have hpair1 : (R, C) ∈ (collectRun emptyCollectState es1).seenPairs :=
      hinv1.1 R C S hS hseen1
    have hnorow1 : (R, C, -1) ∉ (collectRun emptyCollectState es1).rows := by
      intro hmem
      rcases collectRun_rows_sub es1 _ _ hmem with h | h
      · simp [emptyCollectState] at h
      · exact absurd rfl (h1 _ h rfl)
    rw [collectRun_append]
    exact collectRun_no_catchall es2 _ R C hpair1 hnorow1

/-- Witness for `collect_dedup_law` on a two-event stream: record `"a"`
under `(2, 5)` then under the catch-all `(2, -1)`. -/
theorem collect_dedup_law_witness :
    ((collectRun emptyCollectState ([("a", 2, 5)] ++ [("a", 2, -1)])).rows.count
        ("a", 2, 5) = 1) ∧
    ("a", (2 : Int), (-1 : Int)) ∉
      (collectRun emptyCollectState ([("a", 2, 5)] ++ [("a", 2, -1)])).rows :=
  collect_dedup_law [("a", 2, 5)] [("a", 2, -1)] "a" 2 5 (by decide)
    (by decide) (by decide) (by decide) (by decide)

/-- After a run processes any event, its `(ruid, category)` pair is
recorded (uses the run invariant to cover the skip branches). -/
theorem collectRun_event_pair :
    ∀ (es : List RKey) (st : CollectState) (r : String) (c s : Int),
      CollectInv st → (r, c, s) ∈ es →
      (r, c) ∈ (collectRun st es).seenPairs := by
  intro es
  induction es with
  | nil => intro st r c s _ h; exact absurd h (List.not_mem_nil _)
  | cons e rest ih =>
    intro st r c s hinv hmem
    rw [collectRun_cons]
    rcases List.mem_cons.mp hmem with he | hmem'
    · subst he
      apply collectRun_pairs_mono
      obtain ⟨i1, _, _, _⟩ := hinv
      by_cases hs : s = -1
      · subst hs
        by_cases hp : (r, c) ∈ st.seenPairs
        · have hc : commitRuid st (r, c, -1) = st := by simp [commitRuid, hp]
          rw [hc]; exact hp
        · have hc : commitRuid st (r, c, -1) =
              ⟨(r, c, -1) :: st.seen, (r, c) :: st.seenPairs, st.rows ++ [(r, c, -1)]⟩ := by
            simp [commitRuid, hp]
          rw [hc]; exact List.mem_cons_self _ _
      · by_cases hm : (r, c, s) ∈ st.seen
        · have hc : commitRuid st (r, c, s) = st := by simp [commitRuid, hs, hm]
          rw [hc]; exact i1 r c s hs hm
        · have hc : commitRuid st (r, c, s) =
              ⟨(r, c, s) :: st.seen, (r, c) :: st.seenPairs, st.rows ++ [(r, c, s)]⟩ := by
            simp [commitRuid, hs, hm]
          rw [hc]; exact List.mem_cons_self _ _
    · exact ih _ _ _ _ (commitRuid_inv e hinv) hmem'

/-- A run over a state that already covers all its events is a no-op. -/
theorem collectRun_closed :
    ∀ (es : List RKey) (st : CollectState),
      (∀ r c s, (r, c, s) ∈ es →
        (s ≠ -1 → (r, c, s) ∈ st.seen) ∧ (s = -1 → (r, c) ∈ st.seenPairs)) →
      collectRun st es = st := by
  intro es
  induction es with
  | nil => intro st _; rfl
  | cons e rest ih =>
    intro st h
    obtain ⟨r, c, s⟩ := e
    have hcomm : commitRuid st (r, c, s) = st := by
      by_cases hs : s = -1
      · subst hs
        have hp : (r, c) ∈ st.seenPairs :=
          (h r c (-1) (List.mem_cons_self _ _)).2 rfl
        simp [commitRuid, hp]
      · have hm : (r, c, s) ∈ st.seen :=
          (h r c s (List.mem_cons_self _ _)).1 hs
        simp [commitRuid, hs, hm]
    rw [collectRun_cons, hcomm]
    exact ih st (fun r' c' s' hm' => h r' c' s' (List.mem_cons_of_mem _ hm'))

/-- On a duplicate-free list disjoint from the already-kept keys, the
dedup pass of the final merge keeps every row. -/
theorem dedupKeepFirst_eq_self :
    ∀ (l seenKeys : List RKey),
      (∀ k : RKey, l.count k ≤ 1) → (∀ k ∈ seenKeys, k ∉ l) →
      dedupKeepFirst seenKeys l = l := by
  intro l
  induction l with
  | nil => intro sk _ _; rfl
  | cons k rest ih =>
    intro sk hcount hdisj
    have hk : k ∉ sk := fun h => hdisj k h (List.mem_cons_self _ _)
    simp only [dedupKeepFirst, if_neg hk]
    congr 1
    apply ih
    · intro k'
      have h := hcount k'
      rw [List.count_cons] at h
      by_cases hkk : k' = k
      · subst hkk
        simp at h
        omega
      · simp [hkk] at h
        omega
    · intro k' hk'
      rcases List.mem_cons.mp hk' with he | hmem'
      · intro hmem
        rw [he] at hmem
        have h := hcount k
        rw [List.count_cons] at h
        simp at h
        have hz : rest.count k = 0 := by omega
        exact (List.count_eq_zero.mp hz) hmem
      · intro hmem
        exact hdisj k' hmem' (List.mem_cons_of_mem _ hmem)

/-- **C7.** Idempotence of collection.  Running collection a second time
against the unchanged backing service (the same event stream `es`) and the
same output file: the second run — whose `seen` is seeded from the first
run's output rows — writes no new row, and the final merge of existing
rows with the (empty) new rows reproduces exactly the first run's rows:
no duplicates added, no rows lost. -/
theorem collect_rerun_idempotent (es : List RKey) :
    (collectRun (initialCollectState (collectRun emptyCollectState es).rows) es).rows
        = [] ∧
    mergeDedup (collectRun emptyCollectState es).rows
        (collectRun (initialCollectState (collectRun emptyCollectState es).rows) es).rows
      = (collectRun emptyCollectState es).rows := by
  have hinv1 : CollectInv (collectRun emptyCollectState es) :=
    collectRun_inv _ _ emptyCollectState_inv
  have hssr1 : SeenSubRows (collectRun emptyCollectState es) :=
    collectRun_ssr _ _ emptyCollectState_ssr
  have hclosed :
      collectRun (initialCollectState (collectRun emptyCollectState es).rows) es
        = initialCollectState (collectRun emptyCollectState es).rows := by
    apply collectRun_closed
    intro r c s hmem
    constructor
    · intro hs
      have h1 : (r, c, s) ∈ (collectRun emptyCollectState es).seen :=
        collectRun_event_seen es _ r c s hmem hs
      have h2 : (r, c, s) ∈ (collectRun emptyCollectState es).rows := hssr1.1 _ h1
      exact h2
    · intro _
      have h1 : (r, c) ∈ (collectRun emptyCollectState es).seenPairs :=
        collectRun_event_pair es _ r c s emptyCollectState_inv hmem
      obtain ⟨s', hs'⟩ := hssr1.2 (r, c) h1
      show (r, c) ∈ (collectRun emptyCollectState es).rows.map (fun k => (k.1, k.2.1))
      exact List.mem_map.mpr ⟨(r, c, s'), hs', rfl⟩
  have hrows :
      (collectRun (initialCollectState (collectRun emptyCollectState es).rows) es).rows
        = [] := by
    rw [hclosed]; rfl
  refine ⟨hrows, ?_⟩
  rw [hrows]
  show mergeDedup (collectRun emptyCollectState es).rows [] = _
  unfold mergeDedup
  rw [List.append_nil]
  exact dedupKeepFirst_eq_self _ [] hinv1.2.2.2 (by simp)

/-- Replacing the value of key `k'` in an association list does not change
the lookup of any other key. -/
theorem alookup_map_replace {k k' : Int × Int} (v : SegVal)
    (hne : k ≠ k') :
    ∀ m : List ((Int × Int) × SegVal),
      alookup (m.map (fun p => if p.1 = k' then (k', v) else p)) k = alookup m k := by
  intro m
  induction m with
  | nil => rfl
  | cons p rest ih =>
    by_cases hp : p.1 = k'
    · simp only [List.map_cons, if_pos hp, alookup]
      rw [if_neg (fun h => hne (by rw [← h])), if_neg (by rw [hp]; exact fun h => hne (by rw [← h]))]
      exact ih
    · simp only [List.map_cons, if_neg hp, alookup]
      split
      · rfl
      · exact ih

/-- Appending a binding for key `k'` does not change the lookup of any
other key. -/
theorem alookup_append_single {k k' : Int × Int} (v : SegVal)
    (hne : k ≠ k') :
    ∀ m : List ((Int × Int) × SegVal),
      alookup (m ++ [(k', v)]) k = alookup m k := by
  intro m
  induction m with
  | nil =>
    simp only [List.nil_append, alookup]
    rw [if_neg (fun h => hne h.symm)]
  | cons p rest ih =>
    simp only [List.cons_append, alookup]
    split
    · rfl
    · exact ih

/-- A `dict` assignment for key `k'` leaves every other key's lookup
unchanged. -/
theorem dictInsertSeg_other {k k' : Int × Int} (v : SegVal)
    (hne : k ≠ k') (m : List ((Int × Int) × SegVal)) :
    alookup (dictInsertSeg m k' v) k = alookup m k := by
  unfold dictInsertSeg
  split
  · exact alookup_map_replace v hne m
  · exact alookup_append_single v hne m

/-- **C9.** Frame property of the boundary-table rewrite: when boundary
discovery runs over a subset of partitions (`results`) and rewrites the
table by merging into the loaded `existing` rows, the entry of every
partition key outside that subset is exactly the pre-existing one —
unchanged names and last_page, and never dropped. -/
theorem last_pages_merge_preserves_unrelated
    (existing results : List ((Int × Int) × SegVal)) (k : Int × Int)
    (hk : k ∉ results.map Prod.fst) :
    alookup (mergeLastPages existing results) k = alookup existing k := by
  induction results generalizing existing with
  | nil => rfl
  | cons kv rest ih =>
    have hk1 : k ≠ kv.1 := by
      intro h
      exact hk (by rw [h]; exact List.mem_cons_self _ _)
    have hk2 : k ∉ rest.map Prod.fst := fun h => hk (List.mem_cons_of_mem _ h)
    show alookup (mergeLastPages (dictInsertSeg existing kv.1 kv.2) rest) k = _
    rw [ih (dictInsertSeg existing kv.1 kv.2) hk2]
    exact dictInsertSeg_other kv.2 hk1 existing

/-- Witness for `last_pages_merge_preserves_unrelated`: updating partition
`(0, 5)` leaves the `(1, -1)` entry of the table untouched. -/
theorem last_pages_merge_preserves_unrelated_witness :
    ((1, -1) : Int × Int) ∉ ([(((0 : Int), (5 : Int)), ("sprite", "object", 13))].map
      Prod.fst) ∧
    alookup (mergeLastPages
        [(((0 : Int), (5 : Int)), ("sprite", "object", 12)),
         (((1 : Int), (-1 : Int)), ("audioclip", "all", 7))]
        [(((0 : Int), (5 : Int)), ("sprite", "object", 13))]) (1, -1) =
      alookup
        [(((0 : Int), (5 : Int)), ("sprite", "object", 12)),
         (((1 : Int), (-1 : Int)), ("audioclip", "all", 7))] (1, -1) :=
  ⟨by decide,
    last_pages_merge_preserves_unrelated
      [(((0 : Int), (5 : Int)), ("sprite", "object", 12)),
       (((1 : Int), (-1 : Int)), ("audioclip", "all", 7))]
      [(((0 : Int), (5 : Int)), ("sprite", "object", 13))] (1, -1) (by decide)⟩

/-- A sequence of operations that each leave `out` untouched (regardless
of the current file system) leaves `out` untouched. -/
theorem runFsOps_preserves (out : String) :
    ∀ (ops : List FsOp) (fs : String → Option String),
      (∀ op ∈ ops, ∀ g : String → Option String, applyFsOp g op out = g out) →
      runFsOps fs ops out = fs out := by
  intro ops
  induction ops with
  | nil => intro fs _; rfl
  | cons op rest ih =>
    intro fs h
    show runFsOps (applyFsOp fs op) rest out = fs out
    rw [ih _ (fun op' hop' => h op' (List.mem_cons_of_mem _ hop'))]
    exact h op (List.mem_cons_self _ _) fs

/-- **C8.** Crash safety of the enrichment writer: if the run terminates
at any point strictly before the final atomic rename — after executing
any proper prefix of the writer's operation trace, optionally followed by
the exception handler's `os.unlink(temp_path)` — then the pre-existing
output file's contents are exactly what they were before the run
started. -/
theorem enrich_crash_safety (fs : String → Option String) (temp out : String)
    (chunks : List String) (k : Nat)
    (hne : temp ≠ out) (hk : k < (enrichWriterOps temp out chunks).length) :
    runFsOps fs ((enrichWriterOps temp out chunks).take k) out = fs out ∧
    runFsOps fs ((enrichWriterOps temp out chunks).take k ++ [FsOp.unlinkF temp]) out
      = fs out := by
  have hlen : (enrichWriterOps temp out chunks).length
      = (enrichWriterInitOps temp chunks).length + 1 := by
    simp [enrichWriterOps]
  have hkle : k ≤ (enrichWriterInitOps temp chunks).length := by omega
  have htake : (enrichWriterOps temp out chunks).take k
      = (enrichWriterInitOps temp chunks).take k := by
    unfold enrichWriterOps
    exact List.take_append_of_le_length hkle
  have hout : (out = temp) = False := by
    simp only [eq_iff_iff, iff_false]
    exact fun h => hne h.symm
  have hpres : ∀ op ∈ (enrichWriterOps temp out chunks).take k ++ [FsOp.unlinkF temp],
      ∀ g : String → Option String, applyFsOp g op out = g out := by
    intro op hop g
    rcases List.mem_append.mp hop with h1 | h1
    · rw [htake] at h1
      have h2 : op ∈ enrichWriterInitOps temp chunks := List.take_subset _ _ h1
      rcases List.mem_cons.mp h2 with he | hm
      · rw [he]; simp [applyFsOp, hout]
      · obtain ⟨c, _, he⟩ := List.mem_map.mp hm
        rw [← he]; simp [applyFsOp, hout]
    · rw [List.mem_singleton.mp h1]; simp [applyFsOp, hout]
  constructor
  · exact runFsOps_preserves out _ fs
      (fun op hop => hpres op (List.mem_append.mpr (Or.inl hop)))
  · exact runFsOps_preserves out _ fs hpres

/-- Witness for `enrich_crash_safety`: crash after the header write, with
and without the unlink cleanup, leaves `"out.csv"` holding `"OLD"`. -/
theorem enrich_crash_safety_witness :
    (("enrich_tmp.csv" : String) ≠ "out.csv" ∧
      1 < (enrichWriterOps "enrich_tmp.csv" "out.csv" ["row"]).length) ∧
    (runFsOps cexFs ((enrichWriterOps "enrich_tmp.csv" "out.csv" ["row"]).take 1)
        "out.csv" = cexFs "out.csv" ∧
      runFsOps cexFs
          ((enrichWriterOps "enrich_tmp.csv" "out.csv" ["row"]).take 1 ++
            [FsOp.unlinkF "enrich_tmp.csv"]) "out.csv" = cexFs "out.csv") :=
  ⟨⟨by decide, by decide⟩,
    enrich_crash_safety cexFs "enrich_tmp.csv" "out.csv" ["row"] 1 (by decide)
      (by decide)⟩

/-- A successful association-list lookup means the key occurs. -/
theorem alookup_isSome_mem {α β : Type} [DecidableEq α] :
    ∀ (m : List (α × β)) (k : α),
      (alookup m k).isSome = true → k ∈ m.map Prod.fst := by
  intro m
  induction m with
  | nil => intro k h; simp [alookup] at h
  | cons p rest ih =>
    intro k h
    rw [List.map_cons]
    by_cases hp : p.1 = k
    · rw [hp]; exact List.mem_cons_self _ _
    · simp only [alookup, if_neg hp] at h
      exact List.mem_cons_of_mem _ (ih k h)

/-- Updating key `kv.1` of a dict introduces no other key. -/
theorem dictUpdate_keys (m : List (String × EInfo)) (kv : String × EInfo) :
    ∀ k, k ∈ (dictUpdate m kv).map Prod.fst → k ∈ m.map Prod.fst ∨ k = kv.1 := by
  intro k h
  unfold dictUpdate at h
  split at h
  · obtain ⟨p, hp, he⟩ := List.mem_map.mp h
    obtain ⟨q, hq, he2⟩ := List.mem_map.mp hp
    by_cases hqk : q.1 = kv.1
    · rw [if_pos hqk] at he2
      right; rw [← he, ← he2]
    · rw [if_neg hqk] at he2
      left
      exact List.mem_map.mpr ⟨q, hq, by rw [he2, he]⟩
  · rw [List.map_append] at h
    rcases List.mem_append.mp h with h1 | h1
    · exact Or.inl h1
    · right
      simpa using h1

/-- `dict.update(item)` introduces only keys of `item`. -/
theorem foldl_dictUpdate_keys :
    ∀ (item : List (String × EInfo)) (m : List (String × EInfo)) (k : String),
      k ∈ (item.foldl dictUpdate m).map Prod.fst →
      k ∈ m.map Prod.fst ∨ k ∈ item.map Prod.fst := by
  intro item
  induction item with
  | nil => intro m k h; exact Or.inl h
  | cons kv rest ih =>
    intro m k h
    rcases ih (dictUpdate m kv) k h with h1 | h1
    · rcases dictUpdate_keys m kv k h1 with h2 | h2
      · exact Or.inl h2
      · right; rw [List.map_cons, h2]; exact List.mem_cons_self _ _
    · right; rw [List.map_cons]; exact List.mem_cons_of_mem _ h1

/-- A key appearing in some queue item appears in `itemKeys`. -/
theorem mem_itemKeys :
    ∀ (items : List (List (String × EInfo))) (item : List (String × EInfo))
      (kv : String × EInfo), item ∈ items → kv ∈ item → kv.1 ∈ itemKeys items := by
  intro items
  induction items with
  | nil => intro item kv h _; exact absurd h (List.not_mem_nil _)
  | cons it rest ih =>
    intro item kv hmem hkv
    show kv.1 ∈ it.map Prod.fst ++ itemKeys rest
    rcases List.mem_cons.mp hmem with he | hmem'
    · exact List.mem_append.mpr (Or.inl (List.mem_map.mpr ⟨kv, by rw [← he]; exact hkv, rfl⟩))
    · exact List.mem_append.mpr (Or.inr (ih item kv hmem' hkv))

/-- Conversely, every key of `itemKeys` comes from some queue item. -/
theorem itemKeys_mem_inv :
    ∀ (items : List (List (String × EInfo))) (k : String),
      k ∈ itemKeys items →
      ∃ item, item ∈ items ∧ ∃ kv, kv ∈ item ∧ kv.1 = k := by
  intro items
  induction items with
  | nil => intro k h; exact absurd h (List.not_mem_nil _)
  | cons it rest ih =>
    intro k h
    rcases List.mem_append.mp h with h1 | h1
    · obtain ⟨kv, hkv, he⟩ := List.mem_map.mp h1
      exact ⟨it, List.mem_cons_self _ _, kv, hkv, he⟩
    · obtain ⟨item, h2, kv, h3, h4⟩ := ih k h1
      exact ⟨item, List.mem_cons_of_mem _ h2, kv, h3, h4⟩

/-- `Forall₂` respects appending. -/
theorem forall₂_append_of {α β : Type} {R : α → β → Prop} :
    ∀ {l₁ u₁ : List α} {l₂ u₂ : List β},
      List.Forall₂ R l₁ l₂ → List.Forall₂ R u₁ u₂ →
      List.Forall₂ R (l₁ ++ u₁) (l₂ ++ u₂) := by
  intro l₁ u₁ l₂ u₂ h1 h2
  induction h1 with
  | nil => simpa using h2
  | cons hab _ ih => exact List.Forall₂.cons hab ih

/-- A list is pointwise related to its image under `g` whenever each
element is related to its image. -/
theorem forall₂_map_self {α β : Type} {P : α → β → Prop} (g : α → β) :
    ∀ l : List α, (∀ a ∈ l, P a (g a)) → List.Forall₂ P l (l.map g) := by
  intro l
  induction l with
  | nil => intro _; exact List.Forall₂.nil
  | cons a rest ih =>
    intro h
    exact List.Forall₂.cons (h a (List.mem_cons_self _ _))
      (ih (fun a' ha' => h a' (List.mem_cons_of_mem _ ha')))

/-- Specification of the drain loop: it consumes a prefix `d` of the
pending rows, all of whose RUIDs have arrived, writing for each exactly
the row determined by the current `enriched` dict. -/
theorem drainLoop_spec (outputRows : List ((String × String × String) × ERow))
    (enr : List (String × EInfo)) :
    ∀ pending : List ERow, ∃ d : List ERow,
      pending = d ++ (drainLoop outputRows enr pending).2 ∧
      (drainLoop outputRows enr pending).1 =
        d.map (fun r =>
          writeRowOutput outputRows r (alookup enr (normalizeRuid r.ruid))) ∧
      ∀ r ∈ d, (alookup enr (normalizeRuid r.ruid)).isSome = true := by
  intro pending
  induction pending with
  | nil => exact ⟨[], rfl, rfl, by simp⟩
  | cons r rest ih =>
    cases hl : alookup enr (normalizeRuid r.ruid) with
    | none =>
      have he : drainLoop outputRows enr (r :: rest) = ([], r :: rest) := by
        simp [drainLoop, hl]
      refine ⟨[], ?_, ?_, by simp⟩
      · rw [he]
        rfl
      · rw [he]
        rfl
    | some info =>
      obtain ⟨d, h1, h2, h3⟩ := ih
      have he : drainLoop outputRows enr (r :: rest) =
          (writeRowOutput outputRows r (some info) :: (drainLoop outputRows enr rest).1,
            (drainLoop outputRows enr rest).2) := by
        simp [drainLoop, hl]
      refine ⟨r :: d, ?_, ?_, ?_⟩
      · rw [he]
        show r :: rest = r :: d ++ (drainLoop outputRows enr rest).2
        rw [List.cons_append, ← h1]
      · rw [he]
        show writeRowOutput outputRows r (some info) :: _ = _
        rw [List.map_cons, h2, hl]
      · intro r' hr'
        rcases List.mem_cons.mp hr' with he' | hmem'
        · rw [he', hl]; rfl
        · exact h3 r' hmem'

/-- Invariant of the writer's item-processing fold: it consumes a prefix
`d` of the pending rows, appends pointwise-corresponding output rows `w`,
and only ever holds RUID keys from the queue items. -/
theorem writerFold_spec (outputRows : List ((String × String × String) × ERow))
    (KS : List String) :
    ∀ (items : List (List (String × EInfo))) (st : WriterState),
      (∀ item ∈ items, ∀ kv ∈ item, kv.1 ∈ KS) →
      (∀ k ∈ st.enriched.map Prod.fst, k ∈ KS) →
      ∃ d w,
        st.pending = d ++ (items.foldl (writerStep outputRows) st).pending ∧
        (items.foldl (writerStep outputRows) st).out = st.out ++ w ∧
        List.Forall₂ (RowWritten outputRows KS) d w ∧
        (∀ k ∈ (items.foldl (writerStep outputRows) st).enriched.map Prod.fst,
          k ∈ KS) := by
  intro items
  induction items with
  | nil =>
    intro st _ henr
    exact ⟨[], [], by simp, by simp, List.Forall₂.nil, henr⟩
  | cons item rest ih =>
    intro st hks henr
    have henr1 : ∀ k ∈ (writerStep outputRows st item).enriched.map Prod.fst, k ∈ KS := by
      intro k hk
      rcases foldl_dictUpdate_keys item st.enriched k hk with h | h
      · exact henr k h
      · obtain ⟨kv, hkv, he⟩ := List.mem_map.mp h
        rw [← he]
        exact hks item (List.mem_cons_self _ _) kv hkv
    obtain ⟨d₀, h0p, h0w, h0s⟩ :=
      drainLoop_spec outputRows (item.foldl dictUpdate st.enriched) st.pending
    obtain ⟨d₁, w₁, h1p, h1w, h1f, h1k⟩ :=
      ih (writerStep outputRows st item)
        (fun it hit => hks it (List.mem_cons_of_mem _ hit)) henr1
    refine ⟨d₀ ++ d₁,
      (drainLoop outputRows (item.foldl dictUpdate st.enriched) st.pending).1 ++ w₁,
      ?_, ?_, ?_, h1k⟩
    · show st.pending = _ ++ (rest.foldl (writerStep outputRows) _).pending
      rw [h0p]
      have hpend : (writerStep outputRows st item).pending =
          (drainLoop outputRows (item.foldl dictUpdate st.enriched) st.pending).2 := rfl
      rw [← hpend, h1p, ← List.append_assoc]
    · show (rest.foldl (writerStep outputRows) _).out = _
      rw [h1w]
      have hout : (writerStep outputRows st item).out =
          st.out ++ (drainLoop outputRows (item.foldl dictUpdate st.enriched) st.pending).1 := rfl
      rw [hout, List.append_assoc]
    · refine forall₂_append_of ?_ h1f
      rw [h0w]
      apply forall₂_map_self
      intro r hr
      refine ⟨alookup (item.foldl dictUpdate st.enriched) (normalizeRuid r.ruid),
        rfl, ?_⟩
      intro v hv
      apply henr1
      have hstep : (writerStep outputRows st item).enriched
          = item.foldl dictUpdate st.enriched := rfl
      rw [hstep]
      exact alookup_isSome_mem _ _ (by rw [hv]; rfl)

/-- Every output row of the writer corresponds, in order, to one input
row, written with some info option; fresh info is only used for RUIDs
that arrived on the queue. -/
theorem writerRun_rows_correspond
    (outputRows : List ((String × String × String) × ERow))
    (items : List (List (String × EInfo))) (rows : List ERow) :
    List.Forall₂ (RowWritten outputRows (itemKeys items)) rows
      (writerRun outputRows items rows) := by
  obtain ⟨d, w, h1, h2, h3, h4⟩ :=
    writerFold_spec outputRows (itemKeys items) items ⟨[], [], rows⟩
      (fun item hi kv hkv => mem_itemKeys items item kv hi hkv)
      (by simp)
  have hrun : writerRun outputRows items rows
      = (items.foldl (writerStep outputRows) ⟨[], [], rows⟩).out ++
        (items.foldl (writerStep outputRows) ⟨[], [], rows⟩).pending.map (fun r =>
          writeRowOutput outputRows r
            (alookup (items.foldl (writerStep outputRows) ⟨[], [], rows⟩).enriched
              (normalizeRuid r.ruid))) := rfl
  rw [hrun]
  have h1' : rows = d ++ (items.foldl (writerStep outputRows) ⟨[], [], rows⟩).pending :=
    h1
  have h2' : (items.foldl (writerStep outputRows) ⟨[], [], rows⟩).out = w := by
    rw [h2]; simp
  rw [h2']
  conv_lhs => rw [h1']
  refine forall₂_append_of h3 ?_
  apply forall₂_map_self
  intro r hr
  refine ⟨alookup (items.foldl (writerStep outputRows) ⟨[], [], rows⟩).enriched
    (normalizeRuid r.ruid), rfl, ?_⟩
  intro v hv
  apply h4
  exact alookup_isSome_mem _ _ (by rw [hv]; rfl)

/-- **C6.** For every input row list and every order in which fetch
results arrive at the writer's queue (followed by the sentinel), the
enrichment writer writes exactly one output row for each input row — the
outputs correspond pointwise and in order to the inputs (no row twice, no
row dropped), so the output length equals the input length. -/
theorem enrich_writer_order_preserved
    (outputRows : List ((String × String × String) × ERow))
    (items : List (List (String × EInfo))) (rows : List ERow) :
    List.Forall₂
      (fun r o => ∃ info : Option EInfo, o = writeRowOutput outputRows r info)
      rows (writerRun outputRows items rows) ∧
    (writerRun outputRows items rows).length = rows.length := by
  have h := writerRun_rows_correspond outputRows items rows
  constructor
  · exact List.Forall₂.imp (fun r o hro => ⟨hro.choose, hro.choose_spec.1⟩) h
  · exact (List.Forall₂.length_eq h).symm

/-- **C5 counterexample.** The claim says a key whose pre-existing output
row is enriched is never rewritten with fewer non-empty fields.  But
`_write_row` gives fresh API info precedence over the existing enriched
row: with a fresh (empty-detail) result arriving for `cexRuid`, the row
written for the enriched key `(cexRuid, "B", "y")` has 0 non-empty fields
while the pre-existing row had 3. -/
theorem enrich_monotonic_counterexample :
    rowHasEnrichment cexExRow = true ∧
    alookup cexOutputRows (rowKey cexR2) = some cexExRow ∧
    writerRun cexOutputRows cexItems cexRows = [cexR1, cexR2] ∧
    nonEmptyFieldCount cexR2 < nonEmptyFieldCount cexExRow := by decide

/-- **C5 (amended).** Enrichment never degrades a key it does not
re-fetch: for every key `K` whose row in the pre-existing output is
enriched, if no queue item carries a fresh result for `K`'s RUID, then
every output row written for an input row with key `K` is exactly the
pre-existing enriched row (in particular it has at least as many
non-empty fields).  A fresh fetch result, however, always takes
precedence and may carry fewer non-empty fields (see the
counterexample). -/
theorem enrich_preserves_unfetched_enriched
    (outputRows : List ((String × String × String) × ERow))
    (items : List (List (String × EInfo))) (rows : List ERow)
    (K : String × String × String) (exRow : ERow)
    (hlk : alookup outputRows K = some exRow)
    (henr : rowHasEnrichment exRow = true)
    (hK : ∀ item ∈ items, ∀ kv ∈ item, kv.1 ≠ K.1) :
    List.Forall₂ (fun r o => rowKey r = K → o = exRow) rows
      (writerRun outputRows items rows) := by
  have h := writerRun_rows_correspond outputRows items rows
  refine List.Forall₂.imp ?_ h
  intro r o hro hkey
  obtain ⟨info, ho, hcond⟩ := hro
  cases info with
  | none =>
    rw [ho]
    show writeRowOutput outputRows r none = exRow
    simp [writeRowOutput, hkey, hlk, henr]
  | some v =>
    exfalso
    have hin : normalizeRuid r.ruid ∈ itemKeys items := hcond v rfl
    obtain ⟨item, hitem, kv, hkv, hke⟩ := itemKeys_mem_inv items _ hin
    apply hK item hitem kv hkv
    rw [hke, ← hkey]
    rfl

/-- Witness for `enrich_preserves_unfetched_enriched`: the enriched key
`(witRuid, "B", "y")` gets no fresh result, so its row is preserved. -/
theorem enrich_preserves_unfetched_enriched_witness :
    (alookup witOutputRows (witRuid, "B", "y") = some witExRow ∧
      rowHasEnrichment witExRow = true ∧
      (∀ item ∈ witItems, ∀ kv ∈ item, kv.1 ≠ (witRuid, "B", "y").1)) ∧
    List.Forall₂ (fun r o => rowKey r = (witRuid, "B", "y") → o = witExRow)
      [witRow] (writerRun witOutputRows witItems [witRow]) :=
  ⟨⟨by decide, by decide, by decide⟩,
    enrich_preserves_unfetched_enriched witOutputRows witItems [witRow]
      (witRuid, "B", "y") witExRow (by decide) (by decide) (by decide)⟩
